import Mathlib

/-!
Verification development for the git repository traversal service
(`dify/git_traverse.py`).  The Python source is shallowly embedded:
pure helper functions (`should_ignore`, `is_important_file`,
`validate_bearer_token`, `detect_repo_type`, repository-name derivation)
become Lean functions, the nested result dictionary becomes an inductive
`Node`, the stateful clone/checkout orchestration becomes an explicit
world-passing step function, and the HTTP endpoint becomes a pure
function from the request data to a response value.  External effects
(git subprocess calls, file reads) are modelled as explicit oracles
passed in as function arguments.
-/

namespace GitTraverse

/-! ### Shell-glob matching (model of Python `fnmatch.fnmatch` on POSIX)

Python's `fnmatch.fnmatch(name, pat)` compiles `pat` to a regex: `*`
matches any (possibly empty) sequence of characters including the path
separator, `?` matches exactly one character, `[seq]` matches one
character of the set (leading `!` negates, a `]` directly after `[` or
`[!` is literal, `a-b` is a code-point range, an unterminated `[` is a
literal `[`), every other character matches itself, and the whole name
must be consumed.  On POSIX `os.path.normcase` is the identity, so
matching is case sensitive. -/

inductive GlobTok where
  | lit : Char → GlobTok
  | any : GlobTok
  | star : GlobTok
  | cls : Bool → List Char → GlobTok
deriving DecidableEq

/-- Scan a character-class body up to the closing bracket; `none` when
the class is unterminated. -/
def scanBody : List Char → Option (List Char × List Char)
  | [] => none
  | c :: rest =>
    if c = ']' then some ([], rest)
    else
      match scanBody rest with
      | some (body, r) => some (c :: body, r)
      | none => none

/-- Scan a class body where a leading closing bracket is literal. -/
def scanFirst : List Char → Option (List Char × List Char)
  | ']' :: rest => (scanBody rest).map (fun br => (']' :: br.1, br.2))
  | rest => scanBody rest

/-- Parse the character-class text following an opening bracket:
negation flag, class body, remaining pattern. -/
def parseClass : List Char → Option (Bool × List Char × List Char)
  | '!' :: rest => (scanFirst rest).map (fun br => (true, br.1, br.2))
  | rest => (scanFirst rest).map (fun br => (false, br.1, br.2))

/-- Membership of a character in a class body, with `a-b` ranges; a
hyphen at the start or end of the body is literal. -/
def classMem (c : Char) : List Char → Bool
  | a :: '-' :: b :: rest => (decide (a ≤ c) && decide (c ≤ b)) || classMem c rest
  | a :: rest => (c == a) || classMem c rest
  | [] => false

/-- Fuelled tokenizer for glob patterns; `tokenize` supplies enough fuel
(one unit per consumed character suffices). -/
def tokGo : Nat → List Char → List GlobTok
  | 0, _ => []
  | _ + 1, [] => []
  | f + 1, c :: ps =>
    if c = '*' then .star :: tokGo f ps
    else if c = '?' then .any :: tokGo f ps
    else if c = '[' then
      match parseClass ps with
      | some (neg, body, rest) => .cls neg body :: tokGo f rest
      | none => .lit '[' :: tokGo f ps
    else .lit c :: tokGo f ps

def tokenize (p : List Char) : List GlobTok := tokGo p.length p

/-- Fuelled anchored glob matcher; each recursive step removes a token
or a character, so fuel `toks.length + s.length + 1` is exact. -/
def matchGo : Nat → List GlobTok → List Char → Bool
  | 0, _, _ => false
  | _ + 1, [], s => s.isEmpty
  | f + 1, .star :: ts, [] => matchGo f ts []
  | f + 1, .star :: ts, c :: s2 => matchGo f ts (c :: s2) || matchGo f (.star :: ts) s2
  | _ + 1, .any :: _, [] => false
  | f + 1, .any :: ts, _ :: s => matchGo f ts s
  | _ + 1, .lit _ :: _, [] => false
  | f + 1, .lit c :: ts, d :: s => (c == d) && matchGo f ts s
  | _ + 1, .cls _ _ :: _, [] => false
  | f + 1, .cls neg body :: ts, d :: s => (classMem d body != neg) && matchGo f ts s

/-- Model of `fnmatch.fnmatch(name, pat)`. -/
def fnmatch (name pat : String) : Bool :=
  matchGo ((tokenize pat.data).length + name.data.length + 1) (tokenize pat.data) name.data

/-! ### Path splitting (model of `str.split(os.sep)` with `os.sep = '/'`) -/

def splitSep (sep : Char) : List Char → List (List Char)
  | [] => [[]]
  | c :: cs =>
    if c = sep then [] :: splitSep sep cs
    else
      match splitSep sep cs with
      | [] => [[c]]
      | h :: t => (c :: h) :: t

/-- The path segments of a relative path, as produced by
`path.split(os.sep)` in Python (never empty; `""` splits to `[""]`). -/
def splitPath (p : String) : List String :=
  (splitSep '/' p.data).map (fun cs => String.mk cs)

/-! ### Pattern lists (lines 51-145 of the source) -/

def IGNORE_PATTERNS : List String := [
  "node_modules",
  "__pycache__",
  "env",
  "venv",
  ".venv",
  "virtualenv",
  "target/dependency",
  "build/dependencies",
  "dist",
  "out",
  "bundle",
  "vendor",
  "tmp",
  "temp",
  "deps",
  "pkg",
  "Pods",
  ".git",
  ".*",
  "*.lock",
  "package-lock.json",
  "yarn.lock",
  "pnpm-lock.yaml",
  "Gemfile.lock",
  "Pipfile.lock",
  "poetry.lock",
  "composer.lock",
  "Cargo.lock",
  "mix.lock",
  "shard.lock",
  "Podfile.lock",
  "gradle.lockfile",
  "pubspec.lock",
  "project.assets.json",
  "packages.lock.json",
  "*.pyc",
  "*.pyo",
  "*.pyd",
  "*.so",
  "*.dll",
  "*.exe",
  "*.bin",
  "*.obj",
  "*.o",
  "*.a",
  "*.lib",
  "*.log",
  "*.cache",
  "*.bak",
  "*.swp",
  "*.swo",
  "*.tmp",
  "*.temp",
  "*.DS_Store",
  "Thumbs.db",
  "desktop.ini",
  "go.sum"
]

def DEFAULT_IMPORTANT_FILE_PATTERNS : List String := [
  "*.md",
  "README*",
  "CONTRIBUTING*",
  "CHANGELOG*",
  "go.mod",
  "go.sum",
  "package.json",
  "package-lock.json",
  "yarn.lock",
  "Gemfile",
  "Gemfile.lock",
  "requirements.txt",
  "setup.py",
  "Pipfile",
  "Pipfile.lock",
  "pom.xml",
  "build.gradle",
  "Cargo.toml",
  "Cargo.lock",
  "devbox.json",
  "Dockerfile",
  ".gitignore",
  ".dockerignore",
  "docker-compose.yml",
  "docker-compose.yaml",
  ".env.example",
  "Makefile",
  "*.config.js",
  "tsconfig.json",
  "tslint.json",
  "eslintrc.*",
  "prettierrc.*"
]

/-! ### Path classifiers (lines 147-159 of the source) -/

/-- Model of `should_ignore`: some segment of the path matches some
ignore pattern. -/
def should_ignore (path : String) : Bool :=
  (splitPath path).any (fun part => IGNORE_PATTERNS.any (fun pat => fnmatch part pat))

/-- Model of `is_important_file`: the full relative path matches some
pattern of the effective set (a supplied custom set replaces the
default set). -/
def is_important_file (rel_path : String) (custom_patterns : Option (List String)) : Bool :=
  (match custom_patterns with
   | some ps => ps
   | none => DEFAULT_IMPORTANT_FILE_PATTERNS).any (fun pat => fnmatch rel_path pat)

/-- Model of `validate_bearer_token`. -/
def validate_bearer_token (bearer_token valid_token : String) : Bool :=
  bearer_token == "Bearer " ++ valid_token

/-! ### The nested result dictionary (`traverse_directory`, lines 248-277)

The traversal builds a nested Python dict whose values are either
sub-dicts (directories) or strings (inlined content, the error
placeholder, or the sentinel `"file"`).  We model such a value as
`Node`; dicts are association lists in insertion order (Python dict
assignment keeps the position of an existing key and appends new keys).
Descending "into" a string value raises a `TypeError` in Python, which
escapes `traverse_directory`; `Option` models that: `none` is the
escaped exception. -/

inductive Node where
  | leaf : String → Node
  | dir : List (String × Node) → Node

abbrev Entries := List (String × Node)

/-- Dict lookup (association list, first binding wins). -/
def getEntry : Entries → String → Option Node
  | [], _ => none
  | (k, v) :: rest, key => if k = key then some v else getEntry rest key

/-- Dict assignment: an existing key keeps its position, a new key is
appended. -/
def setEntry : Entries → String → Node → Entries
  | [], key, v => [(key, v)]
  | (k, w) :: rest, key, v =>
    if k = key then (k, v) :: rest else (k, w) :: setEntry rest key v

/-- Model of the per-item insertion loop of `traverse_directory`
(lines 260-275): walk the non-final segments, creating empty dicts as
needed, then assign the leaf value at the final segment.  Reaching a
string value while walking (or an empty segment list, which would be an
out-of-bounds index in Python) raises, modelled by `none`. -/
def insertParts : Entries → List String → String → Option Entries
  | _, [], _ => none
  | es, [last], v => some (setEntry es last (.leaf v))
  | es, part :: p2 :: ps, v =>
    match getEntry es part with
    | none =>
      (insertParts [] (p2 :: ps) v).map (fun sub => setEntry es part (.dir sub))
    | some (.dir sub) =>
      (insertParts sub (p2 :: ps) v).map (fun sub2 => setEntry es part (.dir sub2))
    | some (.leaf _) => none

/-- The string stored for a non-ignored item (lines 267-275): inlined
content for an important file (`read` models `git show HEAD:item`,
`none` being a `GitCommandError`), the error placeholder when the read
fails, and the sentinel `"file"` otherwise. -/
def leafValue (read : String → Option String) (fp : Option (List String))
    (item : String) : String :=
  if is_important_file item fp then
    match read item with
    | some c => c
    | none => "Error reading file"
  else "file"

/-- One iteration of the item loop of `traverse_directory`
(lines 256-275): ignored items are skipped, every other item is
inserted at its split path; an earlier exception (`none`) propagates. -/
def traverseStep (read : String → Option String) (fp : Option (List String))
    (acc : Option Entries) (item : String) : Option Entries :=
  match acc with
  | none => none
  | some es =>
    if should_ignore item then some es
    else insertParts es (splitPath item) (leafValue read fp item)

/-- Model of the item loop of `traverse_directory` (lines 248-277) over
the `ls_tree -r --name-only` listing. -/
def traverse_directory (read : String → Option String) (fp : Option (List String))
    (items : List String) : Option Entries :=
  items.foldl (traverseStep read fp) (some [])

/-- The node at a nested key path of the result (the "corresponding
nested position" of a slash-separated path). -/
def getPath : Entries → List String → Option Node
  | _, [] => none
  | es, [p] => getEntry es p
  | es, p :: q :: ps =>
    match getEntry es p with
    | some (.dir sub) => getPath sub (q :: ps)
    | _ => none

/-- Read oracle for the concrete scenario of the spec. -/
def scenarioRead : String → Option String := fun p =>
  if p = "README.md" then some "<readme contents>"
  else if p = ".gitignore" then some "<gitignore contents>"
  else none

/-- The `ls_tree` listing of the scenario repository. -/
def scenarioItems : List String :=
  [".gitignore", "README.md", "node_modules/x.js", "src/app.py"]

/-! ### Repository-name derivation (line 208 of the source)

`os.path.splitext(os.path.basename(urlparse(repo_url).path))[0]`:
the `path` component of the URL, its final (possibly empty) segment,
with the extension stripped. -/

/-- Characters before the first occurrence of `stop`. -/
def takeUntil (stop : Char) : List Char → List Char
  | [] => []
  | c :: cs => if c = stop then [] else c :: takeUntil stop cs

/-- Characters after the first occurrence of the three-character scheme
separator, when present. -/
def afterSchemeSlashes : List Char → Option (List Char)
  | ':' :: '/' :: '/' :: rest => some rest
  | _ :: cs => afterSchemeSlashes cs
  | [] => none

/-- Drop the network-location part: everything before the first slash
of the path; a query mark before any slash means an empty path. -/
def dropNetloc : List Char → List Char
  | [] => []
  | c :: cs => if c = '/' then c :: cs else if c = '?' then [] else dropNetloc cs

/-- Model of `urlparse(url).path` for the URL shapes the service
receives: the fragment and query are cut off, and with a
`scheme://netloc` prefix the path starts at the first slash after the
network location. -/
def urlparse_path (url : String) : List Char :=
  let noFrag := takeUntil '#' url.data
  match afterSchemeSlashes noFrag with
  | some rest => takeUntil '?' (dropNetloc rest)
  | none => takeUntil '?' noFrag

/-- Split a character list at its last dot, when it has one. -/
def lastDotSplit : List Char → Option (List Char × List Char)
  | [] => none
  | c :: cs =>
    match lastDotSplit cs with
    | some (pre, suf) => some (c :: pre, suf)
    | none => if c = '.' then some ([], '.' :: cs) else none

/-- Model of `os.path.splitext(b)[0]` for a basename: cut at the last
dot unless every character before that dot is itself a dot (leading
dots belong to the root). -/
def splitext_root (b : List Char) : List Char :=
  match lastDotSplit b with
  | none => b
  | some (pre, _) => if pre.all (fun c => c = '.') then b else pre

/-- Model of the repository-key derivation
`os.path.splitext(os.path.basename(urlparse(repo_url).path))[0]`. -/
def repo_name_of_url (url : String) : String :=
  String.mk (splitext_root ((splitSep '/' (urlparse_path url)).getLastD []))

/-! ### Repository-type detection and the HTTP endpoint
(lines 161-167 and 297-335 of the source) -/

inductive RepoType where
  | github : RepoType
  | gitlab : RepoType
deriving DecidableEq

def RepoType.toStr : RepoType → String
  | .github => "github"
  | .gitlab => "gitlab"

/-- Substring containment, modelling the Python `in` operator on
strings (needle first, haystack second). -/
def containsSub : List Char → List Char → Bool
  | needle, [] => needle.isEmpty
  | needle, c :: cs => needle.isPrefixOf (c :: cs) || containsSub needle cs

def strContains (hay needle : String) : Bool := containsSub needle.data hay.data

/-- Model of `detect_repo_type`: the `ValueError` it raises for an
unrecognizable host is the `Except.error` case. -/
def detect_repo_type (repo_url : String) : Except String RepoType :=
  if strContains repo_url "github.com" then .ok .github
  else if strContains repo_url "gitlab.com" then .ok .gitlab
  else .error "Unable to detect repository type. Please specify 'type' in the request."

/-- Model of line 311 of the source: the request value is used as the
repository type unless it is absent or the string `"null"`, in which
case the type is detected from the URL. -/
def resolveType (reqType : Option String) (url : String) : Except String String :=
  match reqType with
  | none => (detect_repo_type url).map RepoType.toStr
  | some t =>
    if t = "null" then (detect_repo_type url).map RepoType.toStr else .ok t

/-- Model of the Python falsiness-plus-validation test on line 307:
`not authorization or not validate_bearer_token(authorization, valid)`
(an absent header arrives as `None`, and the empty string is falsy). -/
def authFailed (authorization : Option String) (valid_token : String) : Bool :=
  match authorization with
  | none => true
  | some a => (a == "") || !(validate_bearer_token a valid_token)

/-- The request fields the modelled control flow consults.  The
`file_patterns` normalization and `git_token` forwarding of lines
313-319 only shape the arguments of the remote call and are absorbed
into the traversal oracle. -/
structure GitRepoRequest where
  repo_url : String
  branch : Option String := some "main"
  type : Option String := none
  git_token : Option String := none

inductive RespBody where
  | ok : Entries → RespBody
  | err : String → RespBody

structure Response where
  status : Nat
  body : RespBody
  traversalInvoked : Bool

/-- Model of the `get_git_structure` endpoint (lines 299-335):
the 401 guard, then type resolution (whose `ValueError` becomes a 400
via the generic handler), then the remote traversal call, given here as
an oracle `Except` value (a raised exception again becoming a 400).
`traversalInvoked` records whether the remote call was reached. -/
def get_git_structure (valid_token : String) (authorization : Option String)
    (req : GitRepoRequest) (traverseResult : Except String Entries) : Response :=
  if authFailed authorization valid_token then
    { status := 401, body := .err "Invalid or missing bearer token",
      traversalInvoked := false }
  else
    match resolveType req.type req.repo_url with
    | .error msg => { status := 400, body := .err msg, traversalInvoked := false }
    | .ok _ =>
      match traverseResult with
      | .ok es => { status := 200, body := .ok es, traversalInvoked := true }
      | .error msg => { status := 400, body := .err msg, traversalInvoked := true }

/-! ### Clone/checkout orchestration (`traverse_git_repo`, lines 196-295)

The git side effects are modelled by an explicit world: whether the
working copy already exists at the derived location, which branch it
currently has checked out, whether the requested branch exists, and the
repository content as branch-indexed listing/read oracles (unchanged
remote content means unchanged oracles). -/

structure RepoWorld where
  copyExists : Bool
  currentBranch : String
  branchExists : Bool
  listing : String → List String
  readF : String → String → Option String
  remoteReachable : Bool

structure RunOutcome where
  didClone : Bool
  finalBranch : String
  result : Option Entries

/-- Model of one invocation of `traverse_git_repo` with a requested
branch (lines 224-285): `ls_remote` must succeed; the repository is
cloned only when no working copy exists at the derived location
(line 230), otherwise it is opened in place; the checkout of the
requested branch falls back to the current branch when the branch does
not exist, without failing (lines 241-246); then the tree is traversed
and the structure returned. -/
def traverse_git_repo (w : RepoWorld) (branch : String)
    (fp : Option (List String)) : Except String (RunOutcome × RepoWorld) :=
  if !w.remoteReachable then
    .error "Git command error: remote unreachable"
  else
    let newBranch := if w.branchExists then branch else w.currentBranch
    .ok ({ didClone := !w.copyExists,
           finalBranch := newBranch,
           result := traverse_directory (w.readF newBranch) fp (w.listing newBranch) },
         { w with copyExists := true, currentBranch := newBranch })

/-- Inverse of `splitSep`: rejoin the segments with the separator. -/
def joinSegs (sep : Char) : List (List Char) → List Char
  | [] => []
  | [x] => x
  | x :: y :: r => x ++ sep :: joinSegs sep (y :: r)

/-- Every directory reachable in the entries is a nonempty mapping. -/
def WFdir (es : Entries) : Prop :=
  ∀ σ sub, getPath es σ = some (.dir sub) → sub ≠ []

/-- The traversal result of the concrete scenario repository. -/
def scenarioEntries : Entries :=
  [("README.md", .leaf "<readme contents>"),
   ("src", .dir [("app.py", .leaf "file")])]

/-- World for the C5 witness: fresh (no working copy), a current branch
`develop`, and a requested branch that does not exist locally. -/
def witnessWorld : RepoWorld :=
  { copyExists := false,
    currentBranch := "develop",
    branchExists := false,
    listing := fun _ => ["README.md"],
    readF := fun _ p => if p = "README.md" then some "hello" else none,
    remoteReachable := true }

/-- First-run outcome on `witnessWorld`. -/
def witnessOutcome1 : RunOutcome :=
  { didClone := true, finalBranch := "develop",
    result := some [("README.md", .leaf "hello")] }

/-- Second-run outcome on the world left by the first run. -/
def witnessOutcome2 : RunOutcome :=
  { didClone := false, finalBranch := "develop",
    result := some [("README.md", .leaf "hello")] }

/-- World after a run on `witnessWorld`. -/
def witnessWorldAfter : RepoWorld :=
  { witnessWorld with copyExists := true }

/-- Request for the first half of the C9 witness: an unrecognizable
host and no explicit type. -/
def unresolvableReq : GitRepoRequest :=
  { repo_url := "ssh://example.org/repo.git" }

/-- Request for the second half of the C9 witness: a recognized host. -/
def githubReq : GitRepoRequest :=
  { repo_url := "https://github.com/example/proj" }

/-! ### Association-list lemmas -/

theorem getEntry_setEntry_self (es : Entries) (k : String) (v : Node) :
    getEntry (setEntry es k v) k = some v := by
  induction es with
  | nil => simp [setEntry, getEntry]
  | cons e rest ih =>
    obtain ⟨k2, w⟩ := e
    by_cases h : k2 = k
    · simp [setEntry, getEntry, h]
    · simp [setEntry, getEntry, h, ih]

theorem getEntry_setEntry_ne (es : Entries) (k p : String) (v : Node)
    (h : p ≠ k) : getEntry (setEntry es k v) p = getEntry es p := by
  induction es with
  | nil => simp [setEntry, getEntry, Ne.symm h]
  | cons e rest ih =>
    obtain ⟨k2, w⟩ := e
    by_cases h2 : k2 = k
    · subst h2
      simp [setEntry, getEntry, Ne.symm h]
    · by_cases h3 : k2 = p
      · subst h3
        simp [setEntry, getEntry, h2, h]
      · simp [setEntry, getEntry, h2, h3, ih]

theorem setEntry_ne_nil (es : Entries) (k : String) (v : Node) :
    setEntry es k v ≠ [] := by
  cases es with
  | nil => simp [setEntry]
  | cons e rest =>
    obtain ⟨k2, w⟩ := e
    by_cases h : k2 = k <;> simp [setEntry, h]

/-! ### Path-splitting lemmas -/

theorem splitSep_ne_nil (sep : Char) (cs : List Char) : splitSep sep cs ≠ [] := by
  cases cs with
  | nil => simp [splitSep]
  | cons c cs =>
    simp only [splitSep]
    split
    · simp
    · split <;> simp

theorem joinSegs_splitSep (sep : Char) (cs : List Char) :
    joinSegs sep (splitSep sep cs) = cs := by
  induction cs with
  | nil => rfl
  | cons c cs ih =>
    simp only [splitSep]
    by_cases hc : c = sep
    · subst hc
      simp only [if_pos rfl]
      rcases h : splitSep c cs with _ | ⟨a, t⟩
      · exact absurd h (splitSep_ne_nil c cs)
      · rw [h] at ih
        simpa [joinSegs] using ih
    · rw [if_neg hc]
      rcases h : splitSep sep cs with _ | ⟨a, t⟩
      · exact absurd h (splitSep_ne_nil sep cs)
      · rw [h] at ih
        cases t with
        | nil => simpa [joinSegs] using ih
        | cons b t2 => simpa [joinSegs] using ih

theorem splitSep_injective (sep : Char) {a b : List Char}
    (h : splitSep sep a = splitSep sep b) : a = b := by
  have ha := joinSegs_splitSep sep a
  have hb := joinSegs_splitSep sep b
  rw [h] at ha
  rw [ha] at hb
  exact hb

theorem splitPath_injective {p q : String} (h : splitPath p = splitPath q) :
    p = q := by
  unfold splitPath at h
  have hinj : Function.Injective (fun cs : List Char => String.mk cs) := by
    intro a b hab
    exact congrArg String.data hab
  have h2 : splitSep '/' p.data = splitSep '/' q.data :=
    List.map_injective_iff.mpr hinj h
  have h3 : p.data = q.data := splitSep_injective '/' h2
  cases p
  cases q
  exact congrArg String.mk h3

theorem splitPath_ne_nil (p : String) : splitPath p ≠ [] := by
  unfold splitPath
  simpa using splitSep_ne_nil '/' p.data

/-- A path whose segments extend those of an ignored path is itself
ignored: `should_ignore` only looks at individual segments. -/
theorem should_ignore_of_prefix {p q : String}
    (hpre : splitPath p <+: splitPath q) (h : should_ignore p = true) :
    should_ignore q = true := by
  unfold should_ignore at h ⊢
  rw [List.any_eq_true] at h ⊢
  obtain ⟨part, hmem, hmatch⟩ := h
  exact ⟨part, hpre.subset hmem, hmatch⟩

/-! ### Lemmas about `getPath` and `insertParts` -/

theorem getPath_empty (σ : List String) : getPath [] σ = none := by
  cases σ with
  | nil => rfl
  | cons p ps =>
    cases ps with
    | nil => rfl
    | cons q qs => rfl

theorem getPath_nil_path (es : Entries) : getPath es [] = none := rfl

theorem getPath_single (es : Entries) (p : String) :
    getPath es [p] = getEntry es p := rfl

theorem getPath_cons_cons (es : Entries) (p q : String) (qs : List String) :
    getPath es (p :: q :: qs) =
      (match getEntry es p with
       | some (.dir sub) => getPath sub (q :: qs)
       | _ => none) := rfl

theorem insertParts_nil_path (es : Entries) (v : String) :
    insertParts es [] v = none := rfl

theorem insertParts_single (es : Entries) (t : String) (v : String) :
    insertParts es [t] v = some (setEntry es t (.leaf v)) := rfl

theorem insertParts_cons_cons (es : Entries) (t t2 : String) (ts2 : List String)
    (v : String) :
    insertParts es (t :: t2 :: ts2) v =
      (match getEntry es t with
       | none =>
         (insertParts [] (t2 :: ts2) v).map (fun sub => setEntry es t (.dir sub))
       | some (.dir sub) =>
         (insertParts sub (t2 :: ts2) v).map (fun sub2 => setEntry es t (.dir sub2))
       | some (.leaf _) => none) := rfl

theorem insertParts_ne_nil {es es2 : Entries} {τ : List String} {v : String}
    (h : insertParts es τ v = some es2) : es2 ≠ [] := by
  cases τ with
  | nil => simp [insertParts_nil_path] at h
  | cons t ts =>
    cases ts with
    | nil =>
      rw [insertParts_single] at h
      have : setEntry es t (.leaf v) = es2 := by simpa using h
      exact this ▸ setEntry_ne_nil es t (.leaf v)
    | cons t2 ts2 =>
      rw [insertParts_cons_cons] at h
      rcases hg : getEntry es t with _ | n
      · rw [hg] at h
        rcases hsub : insertParts [] (t2 :: ts2) v with _ | sub
        · rw [hsub] at h; simp at h
        · rw [hsub] at h
          have : setEntry es t (.dir sub) = es2 := by simpa using h
          exact this ▸ setEntry_ne_nil es t (.dir sub)
      · cases n with
        | leaf s => rw [hg] at h; simp at h
        | dir sub =>
          rw [hg] at h
          have h2 : (insertParts sub (t2 :: ts2) v).map
              (fun sub2 => setEntry es t (.dir sub2)) = some es2 := h
          rcases hsub : insertParts sub (t2 :: ts2) v with _ | sub2
          · rw [hsub] at h2; simp at h2
          · rw [hsub] at h2
            have : setEntry es t (.dir sub2) = es2 := by simpa using h2
            exact this ▸ setEntry_ne_nil es t (.dir sub2)

/-- Inserting an item can only make paths that lie along the inserted
path reachable; every other reachable path was reachable before. -/
theorem getPath_insertParts {τ : List String} {v : String} :
    ∀ {es es2 : Entries}, insertParts es τ v = some es2 →
      ∀ σ : List String, getPath es2 σ ≠ none →
        getPath es σ ≠ none ∨ σ <+: τ := by
  induction τ with
  | nil =>
    intro es es2 hins
    simp [insertParts_nil_path] at hins
  | cons t ts ih =>
    intro es es2 hins σ hσ
    cases ts with
    | nil =>
      rw [insertParts_single] at hins
      have hes2 : es2 = setEntry es t (.leaf v) := by simpa using hins.symm
      subst hes2
      match σ with
      | [] => simp [getPath_nil_path] at hσ
      | [p] =>
        by_cases hp : p = t
        · subst hp
          right
          exact ⟨[], rfl⟩
        · left
          rw [getPath_single, getEntry_setEntry_ne es t p _ hp] at hσ
          rw [getPath_single]
          exact hσ
      | p :: q :: qs =>
        by_cases hp : p = t
        · subst hp
          rw [getPath_cons_cons, getEntry_setEntry_self] at hσ
          simp at hσ
        · left
          rw [getPath_cons_cons, getEntry_setEntry_ne es t p _ hp] at hσ
          rw [getPath_cons_cons]
          exact hσ
    | cons t2 ts2 =>
      rw [insertParts_cons_cons] at hins
      rcases hg : getEntry es t with _ | n
      · rw [hg] at hins
        rcases hsub : insertParts [] (t2 :: ts2) v with _ | sub
        · rw [hsub] at hins; simp at hins
        · rw [hsub] at hins
          have hes2 : es2 = setEntry es t (.dir sub) := by simpa using hins.symm
          subst hes2
          match σ with
          | [] => simp [getPath_nil_path] at hσ
          | [p] =>
            by_cases hp : p = t
            · subst hp
              right
              exact ⟨t2 :: ts2, rfl⟩
            · left
              rw [getPath_single, getEntry_setEntry_ne es t p _ hp] at hσ
              rw [getPath_single]
              exact hσ
          | p :: q :: qs =>
            by_cases hp : p = t
            · subst hp
              rw [getPath_cons_cons, getEntry_setEntry_self] at hσ
              simp only [] at hσ
              rcases ih hsub (q :: qs) hσ with hold | hpre
              · exact absurd (getPath_empty (q :: qs)) hold
              · right
                exact (List.cons_prefix_cons).mpr ⟨rfl, hpre⟩
            · left
              rw [getPath_cons_cons, getEntry_setEntry_ne es t p _ hp] at hσ
              rw [getPath_cons_cons]
              exact hσ
      · cases n with
        | leaf s => rw [hg] at hins; simp at hins
        | dir sub =>
          rw [hg] at hins
          have hins2 : (insertParts sub (t2 :: ts2) v).map
              (fun sub2 => setEntry es t (.dir sub2)) = some es2 := hins
          rcases hsub : insertParts sub (t2 :: ts2) v with _ | sub2
          · rw [hsub] at hins2; simp at hins2
          · rw [hsub] at hins2
            have hes2 : es2 = setEntry es t (.dir sub2) := by simpa using hins2.symm
            subst hes2
            match σ with
            | [] => simp [getPath_nil_path] at hσ
            | [p] =>
              by_cases hp : p = t
              · subst hp
                right
                exact ⟨t2 :: ts2, rfl⟩
              · left
                rw [getPath_single, getEntry_setEntry_ne es t p _ hp] at hσ
                rw [getPath_single]
                exact hσ
            | p :: q :: qs =>
              by_cases hp : p = t
              · subst hp
                rw [getPath_cons_cons, getEntry_setEntry_self] at hσ
                simp only [] at hσ
                rcases ih hsub (q :: qs) hσ with hold | hpre
                · left
                  rw [getPath_cons_cons, hg]
                  exact hold
                · right
                  exact (List.cons_prefix_cons).mpr ⟨rfl, hpre⟩
              · left
                rw [getPath_cons_cons, getEntry_setEntry_ne es t p _ hp] at hσ
                rw [getPath_cons_cons]
                exact hσ

/-- After a successful insertion the inserted path holds the inserted
leaf. -/
theorem getPath_insertParts_self {τ : List String} {v : String} :
    ∀ {es es2 : Entries}, insertParts es τ v = some es2 →
      getPath es2 τ = some (.leaf v) := by
  induction τ with
  | nil =>
    intro es es2 hins
    simp [insertParts_nil_path] at hins
  | cons t ts ih =>
    intro es es2 hins
    cases ts with
    | nil =>
      rw [insertParts_single] at hins
      have hes2 : es2 = setEntry es t (.leaf v) := by simpa using hins.symm
      subst hes2
      rw [getPath_single, getEntry_setEntry_self]
    | cons t2 ts2 =>
      rw [insertParts_cons_cons] at hins
      rcases hg : getEntry es t with _ | n
      · rw [hg] at hins
        have hins2 : (insertParts [] (t2 :: ts2) v).map
            (fun sub => setEntry es t (.dir sub)) = some es2 := hins
        rcases hsub : insertParts [] (t2 :: ts2) v with _ | sub
        · rw [hsub] at hins2; simp at hins2
        · rw [hsub] at hins2
          have hes2 : es2 = setEntry es t (.dir sub) := by simpa using hins2.symm
          subst hes2
          rw [getPath_cons_cons, getEntry_setEntry_self]
          exact ih hsub
      · cases n with
        | leaf s => rw [hg] at hins; simp at hins
        | dir sub =>
          rw [hg] at hins
          have hins2 : (insertParts sub (t2 :: ts2) v).map
              (fun sub2 => setEntry es t (.dir sub2)) = some es2 := hins
          rcases hsub : insertParts sub (t2 :: ts2) v with _ | sub2
          · rw [hsub] at hins2; simp at hins2
          · rw [hsub] at hins2
            have hes2 : es2 = setEntry es t (.dir sub2) := by simpa using hins2.symm
            subst hes2
            rw [getPath_cons_cons, getEntry_setEntry_self]
            exact ih hsub

/-- A leaf already in place survives a later insertion, unless the
later item overwrites exactly the same path (in which case the new
value stands); an insertion along a strictly longer path through the
leaf would have raised.  The hypothesis rules out the one destructive
case: the inserted path being a strict prefix of the leaf's path. -/
theorem getPath_leaf_insertParts {τ : List String} {v : String} :
    ∀ {es es2 : Entries} {σ : List String} {x : String},
      insertParts es τ v = some es2 →
      getPath es σ = some (.leaf x) →
      ¬(τ <+: σ ∧ τ ≠ σ) →
      getPath es2 σ = some (.leaf (if σ = τ then v else x)) := by
  induction τ with
  | nil =>
    intro es es2 σ x hins hleaf hnsp
    simp [insertParts_nil_path] at hins
  | cons t ts ih =>
    intro es es2 σ x hins hleaf hnsp
    cases ts with
    | nil =>
      rw [insertParts_single] at hins
      have hes2 : es2 = setEntry es t (.leaf v) := by simpa using hins.symm
      subst hes2
      match σ, hleaf with
      | [p], hleaf =>
        by_cases hp : p = t
        · subst hp
          simp [getPath_single, getEntry_setEntry_self]
        · have hne : ([p] : List String) ≠ [t] := by simp [hp]
          rw [if_neg hne]
          rw [getPath_single, getEntry_setEntry_ne es t p _ hp]
          rw [getPath_single] at hleaf
          exact hleaf
      | p :: q :: qs, hleaf =>
        by_cases hp : p = t
        · subst hp
          exact absurd ⟨⟨q :: qs, rfl⟩, by simp⟩ hnsp
        · have hne : (p :: q :: qs : List String) ≠ [t] := by simp
          rw [if_neg hne]
          rw [getPath_cons_cons, getEntry_setEntry_ne es t p _ hp]
          rw [getPath_cons_cons] at hleaf
          exact hleaf
    | cons t2 ts2 =>
      rw [insertParts_cons_cons] at hins
      rcases hg : getEntry es t with _ | n
      · rw [hg] at hins
        have hins2 : (insertParts [] (t2 :: ts2) v).map
            (fun sub => setEntry es t (.dir sub)) = some es2 := hins
        rcases hsub : insertParts [] (t2 :: ts2) v with _ | sub
        · rw [hsub] at hins2; simp at hins2
        · rw [hsub] at hins2
          have hes2 : es2 = setEntry es t (.dir sub) := by simpa using hins2.symm
          subst hes2
          match σ, hleaf with
          | [p], hleaf =>
            rw [getPath_single] at hleaf
            by_cases hp : p = t
            · subst hp
              rw [hg] at hleaf
              simp at hleaf
            · have hne : ([p] : List String) ≠ t :: t2 :: ts2 := by simp [hp]
              rw [if_neg hne]
              rw [getPath_single, getEntry_setEntry_ne es t p _ hp]
              exact hleaf
          | p :: q :: qs, hleaf =>
            rw [getPath_cons_cons] at hleaf
            by_cases hp : p = t
            · subst hp
              rw [hg] at hleaf
              simp at hleaf
            · have hne : (p :: q :: qs : List String) ≠ t :: t2 :: ts2 := by
                simp [hp]
              rw [if_neg hne]
              rw [getPath_cons_cons, getEntry_setEntry_ne es t p _ hp]
              exact hleaf
      · cases n with
        | leaf s => rw [hg] at hins; simp at hins
        | dir sub =>
          rw [hg] at hins
          have hins2 : (insertParts sub (t2 :: ts2) v).map
              (fun sub2 => setEntry es t (.dir sub2)) = some es2 := hins
          rcases hsub : insertParts sub (t2 :: ts2) v with _ | sub2
          · rw [hsub] at hins2; simp at hins2
          · rw [hsub] at hins2
            have hes2 : es2 = setEntry es t (.dir sub2) := by simpa using hins2.symm
            subst hes2
            match σ, hleaf with
            | [p], hleaf =>
              rw [getPath_single] at hleaf
              by_cases hp : p = t
              · subst hp
                rw [hg] at hleaf
                simp at hleaf
              · have hne : ([p] : List String) ≠ t :: t2 :: ts2 := by simp [hp]
                rw [if_neg hne]
                rw [getPath_single, getEntry_setEntry_ne es t p _ hp]
                exact hleaf
            | p :: q :: qs, hleaf =>
              rw [getPath_cons_cons] at hleaf
              by_cases hp : p = t
              · subst hp
                rw [hg] at hleaf
                simp only [] at hleaf
                have hnsp2 : ¬((t2 :: ts2) <+: (q :: qs) ∧ (t2 :: ts2) ≠ (q :: qs)) := by
                  intro hand
                  exact hnsp ⟨(List.cons_prefix_cons).mpr ⟨rfl, hand.1⟩,
                    by simpa using hand.2⟩
                have hrec := ih hsub hleaf hnsp2
                rw [getPath_cons_cons, getEntry_setEntry_self]
                simp only []
                rw [hrec]
                by_cases heq : (q :: qs : List String) = t2 :: ts2
                · simp [heq]
                · have hneq2 : ∀ a : String,
                      (a :: q :: qs : List String) ≠ a :: t2 :: ts2 := by
                    intro a
                    simp [heq]
                  rw [if_neg heq, if_neg (hneq2 _)]
              · have hne : (p :: q :: qs : List String) ≠ t :: t2 :: ts2 := by
                  simp [hp]
                rw [if_neg hne]
                rw [getPath_cons_cons, getEntry_setEntry_ne es t p _ hp]
                exact hleaf

/-! ### The nonempty-directory invariant -/

theorem WFdir_empty : WFdir [] := by
  intro σ sub h
  rw [getPath_empty] at h
  simp at h

theorem WFdir_descend {es sub : Entries} {t : String}
    (h : WFdir es) (hg : getEntry es t = some (.dir sub)) : WFdir sub := by
  intro σ sub2 h2
  cases σ with
  | nil => rw [getPath_nil_path] at h2; simp at h2
  | cons q qs =>
    apply h (t :: q :: qs) sub2
    rw [getPath_cons_cons, hg]
    exact h2

theorem WFdir_insertParts {τ : List String} {v : String} :
    ∀ {es es2 : Entries}, insertParts es τ v = some es2 → WFdir es → WFdir es2 := by
  induction τ with
  | nil =>
    intro es es2 hins _
    simp [insertParts_nil_path] at hins
  | cons t ts ih =>
    intro es es2 hins hwf
    cases ts with
    | nil =>
      rw [insertParts_single] at hins
      have hes2 : es2 = setEntry es t (.leaf v) := by simpa using hins.symm
      subst hes2
      intro σ sub2 h2
      match σ, h2 with
      | [p], h2 =>
        rw [getPath_single] at h2
        by_cases hp : p = t
        · subst hp
          rw [getEntry_setEntry_self] at h2
          simp at h2
        · rw [getEntry_setEntry_ne es t p _ hp] at h2
          exact hwf [p] sub2 h2
      | p :: q :: qs, h2 =>
        rw [getPath_cons_cons] at h2
        by_cases hp : p = t
        · subst hp
          rw [getEntry_setEntry_self] at h2
          simp at h2
        · rw [getEntry_setEntry_ne es t p _ hp] at h2
          exact hwf (p :: q :: qs) sub2 h2
    | cons t2 ts2 =>
      rw [insertParts_cons_cons] at hins
      rcases hg : getEntry es t with _ | n
      · rw [hg] at hins
        have hins2 : (insertParts [] (t2 :: ts2) v).map
            (fun sub => setEntry es t (.dir sub)) = some es2 := hins
        rcases hsub : insertParts [] (t2 :: ts2) v with _ | sub
        · rw [hsub] at hins2; simp at hins2
        · rw [hsub] at hins2
          have hes2 : es2 = setEntry es t (.dir sub) := by simpa using hins2.symm
          subst hes2
          have hwfsub : WFdir sub := ih hsub WFdir_empty
          have hsubne : sub ≠ [] := insertParts_ne_nil hsub
          intro σ sub2 h2
          match σ, h2 with
          | [p], h2 =>
            rw [getPath_single] at h2
            by_cases hp : p = t
            · subst hp
              rw [getEntry_setEntry_self] at h2
              have hss : sub = sub2 := by simpa using h2
              exact hss ▸ hsubne
            · rw [getEntry_setEntry_ne es t p _ hp] at h2
              exact hwf [p] sub2 h2
          | p :: q :: qs, h2 =>
            rw [getPath_cons_cons] at h2
            by_cases hp : p = t
            · subst hp
              rw [getEntry_setEntry_self] at h2
              simp only [] at h2
              exact hwfsub (q :: qs) sub2 h2
            · rw [getEntry_setEntry_ne es t p _ hp] at h2
              exact hwf (p :: q :: qs) sub2 h2
      · cases n with
        | leaf s => rw [hg] at hins; simp at hins
        | dir sub =>
          rw [hg] at hins
          have hins2 : (insertParts sub (t2 :: ts2) v).map
              (fun sub2 => setEntry es t (.dir sub2)) = some es2 := hins
          rcases hsub : insertParts sub (t2 :: ts2) v with _ | subNew
          · rw [hsub] at hins2; simp at hins2
          · rw [hsub] at hins2
            have hes2 : es2 = setEntry es t (.dir subNew) := by simpa using hins2.symm
            subst hes2
            have hwfsub : WFdir subNew := ih hsub (WFdir_descend hwf hg)
            have hsubne : subNew ≠ [] := insertParts_ne_nil hsub
            intro σ sub2 h2
            match σ, h2 with
            | [p], h2 =>
              rw [getPath_single] at h2
              by_cases hp : p = t
              · subst hp
                rw [getEntry_setEntry_self] at h2
                have hss : subNew = sub2 := by simpa using h2
                exact hss ▸ hsubne
              · rw [getEntry_setEntry_ne es t p _ hp] at h2
                exact hwf [p] sub2 h2
            | p :: q :: qs, h2 =>
              rw [getPath_cons_cons] at h2
              by_cases hp : p = t
              · subst hp
                rw [getEntry_setEntry_self] at h2
                simp only [] at h2
                exact hwfsub (q :: qs) sub2 h2
              · rw [getEntry_setEntry_ne es t p _ hp] at h2
                exact hwf (p :: q :: qs) sub2 h2

/-! ### Lemmas about the traversal fold -/

theorem foldl_traverseStep_none (read : String → Option String)
    (fp : Option (List String)) (items : List String) :
    List.foldl (traverseStep read fp) none items = none := by
  induction items with
  | nil => rfl
  | cons i rest ih => simpa [traverseStep] using ih

theorem traverse_sources {read : String → Option String} {fp : Option (List String)} :
    ∀ (items : List String) (acc es : Entries),
      List.foldl (traverseStep read fp) (some acc) items = some es →
      ∀ σ, getPath es σ ≠ none →
        getPath acc σ ≠ none ∨
          ∃ q ∈ items, should_ignore q = false ∧ σ <+: splitPath q := by
  intro items
  induction items with
  | nil =>
    intro acc es h σ hσ
    rw [List.foldl_nil] at h
    have hae : acc = es := by simpa using h
    subst hae
    left
    exact hσ
  | cons item rest ih =>
    intro acc es h σ hσ
    rw [List.foldl_cons] at h
    by_cases hig : should_ignore item
    · have hstep : traverseStep read fp (some acc) item = some acc := by
        simp [traverseStep, hig]
      rw [hstep] at h
      rcases ih acc es h σ hσ with hold | ⟨q, hq, hnq, hpre⟩
      · left; exact hold
      · right; exact ⟨q, List.mem_cons_of_mem _ hq, hnq, hpre⟩
    · have hstep : traverseStep read fp (some acc) item =
          insertParts acc (splitPath item) (leafValue read fp item) := by
        simp [traverseStep, hig]
      rw [hstep] at h
      rcases hacc2 : insertParts acc (splitPath item) (leafValue read fp item)
        with _ | acc2
      · rw [hacc2, foldl_traverseStep_none] at h
        simp at h
      · rw [hacc2] at h
        rcases ih acc2 es h σ hσ with hold | ⟨q, hq, hnq, hpre⟩
        · rcases getPath_insertParts hacc2 σ hold with hacc | hpre2
          · left; exact hacc
          · right
            exact ⟨item, List.mem_cons_self item rest, by simpa using hig, hpre2⟩
        · right; exact ⟨q, List.mem_cons_of_mem _ hq, hnq, hpre⟩

theorem traverse_preserve_leaf {read : String → Option String}
    {fp : Option (List String)} {p : String} :
    ∀ (items : List String) (acc es : Entries),
      List.foldl (traverseStep read fp) (some acc) items = some es →
      getPath acc (splitPath p) = some (.leaf (leafValue read fp p)) →
      (∀ q ∈ items, should_ignore q = false →
        ¬(splitPath q <+: splitPath p ∧ splitPath q ≠ splitPath p)) →
      getPath es (splitPath p) = some (.leaf (leafValue read fp p)) := by
  intro items
  induction items with
  | nil =>
    intro acc es h hacc _
    rw [List.foldl_nil] at h
    have hae : acc = es := by simpa using h
    subst hae
    exact hacc
  | cons item rest ih =>
    intro acc es h hacc hnsp
    rw [List.foldl_cons] at h
    by_cases hig : should_ignore item
    · have hstep : traverseStep read fp (some acc) item = some acc := by
        simp [traverseStep, hig]
      rw [hstep] at h
      exact ih acc es h hacc (fun q hq => hnsp q (List.mem_cons_of_mem _ hq))
    · have hstep : traverseStep read fp (some acc) item =
          insertParts acc (splitPath item) (leafValue read fp item) := by
        simp [traverseStep, hig]
      rw [hstep] at h
      rcases hacc2 : insertParts acc (splitPath item) (leafValue read fp item)
        with _ | acc2
      · rw [hacc2, foldl_traverseStep_none] at h
        simp at h
      · rw [hacc2] at h
        have hig2 : should_ignore item = false := by simpa using hig
        have hkeep := getPath_leaf_insertParts hacc2 hacc
          (hnsp item (List.mem_cons_self item rest) hig2)
        have hval : (if splitPath p = splitPath item then leafValue read fp item
            else leafValue read fp p) = leafValue read fp p := by
          by_cases he : splitPath p = splitPath item
          · have hpi : p = item := splitPath_injective he
            subst hpi
            rw [if_pos he]
          · rw [if_neg he]
        rw [hval] at hkeep
        exact ih acc2 es h hkeep (fun q hq => hnsp q (List.mem_cons_of_mem _ hq))

theorem traverse_reaches {read : String → Option String}
    {fp : Option (List String)} {p : String} :
    ∀ (items : List String) (acc : Entries) {es : Entries},
      List.foldl (traverseStep read fp) (some acc) items = some es →
      p ∈ items →
      should_ignore p = false →
      (∀ q ∈ items, should_ignore q = false →
        ¬(splitPath q <+: splitPath p ∧ splitPath q ≠ splitPath p)) →
      getPath es (splitPath p) = some (.leaf (leafValue read fp p)) := by
  intro items
  induction items with
  | nil =>
    intro acc es h hmem
    exact absurd hmem (List.not_mem_nil p)
  | cons item rest ih =>
    intro acc es h hmem hnig hnsp
    rw [List.foldl_cons] at h
    by_cases hpi : item = p
    · subst hpi
      have hstep : traverseStep read fp (some acc) item =
          insertParts acc (splitPath item) (leafValue read fp item) := by
        simp [traverseStep, hnig]
      rw [hstep] at h
      rcases hacc2 : insertParts acc (splitPath item) (leafValue read fp item)
        with _ | acc2
      · rw [hacc2, foldl_traverseStep_none] at h
        simp at h
      · rw [hacc2] at h
        exact traverse_preserve_leaf rest acc2 es h
          (getPath_insertParts_self hacc2)
          (fun q hq => hnsp q (List.mem_cons_of_mem _ hq))
    · have hmem2 : p ∈ rest := by
        rcases List.mem_cons.mp hmem with he | hr
        · exact absurd he.symm hpi
        · exact hr
      by_cases hig : should_ignore item
      · have hstep : traverseStep read fp (some acc) item = some acc := by
          simp [traverseStep, hig]
        rw [hstep] at h
        exact ih acc h hmem2 hnig (fun q hq => hnsp q (List.mem_cons_of_mem _ hq))
      · have hstep : traverseStep read fp (some acc) item =
            insertParts acc (splitPath item) (leafValue read fp item) := by
          simp [traverseStep, hig]
        rw [hstep] at h
        rcases hacc2 : insertParts acc (splitPath item) (leafValue read fp item)
          with _ | acc2
        · rw [hacc2, foldl_traverseStep_none] at h
          simp at h
        · rw [hacc2] at h
          exact ih acc2 h hmem2 hnig (fun q hq => hnsp q (List.mem_cons_of_mem _ hq))

theorem traverse_WFdir {read : String → Option String} {fp : Option (List String)} :
    ∀ (items : List String) (acc es : Entries),
      List.foldl (traverseStep read fp) (some acc) items = some es →
      WFdir acc → WFdir es := by
  intro items
  induction items with
  | nil =>
    intro acc es h hwf
    rw [List.foldl_nil] at h
    have hae : acc = es := by simpa using h
    subst hae
    exact hwf
  | cons item rest ih =>
    intro acc es h hwf
    rw [List.foldl_cons] at h
    by_cases hig : should_ignore item
    · have hstep : traverseStep read fp (some acc) item = some acc := by
        simp [traverseStep, hig]
      rw [hstep] at h
      exact ih acc es h hwf
    · have hstep : traverseStep read fp (some acc) item =
          insertParts acc (splitPath item) (leafValue read fp item) := by
        simp [traverseStep, hig]
      rw [hstep] at h
      rcases hacc2 : insertParts acc (splitPath item) (leafValue read fp item)
        with _ | acc2
      · rw [hacc2, foldl_traverseStep_none] at h
        simp at h
      · rw [hacc2] at h
        exact ih acc2 es h (WFdir_insertParts hacc2 hwf)

/-- C2: for every listing, read oracle and important-pattern set, once
a path has a segment matching an ignore pattern (`should_ignore`), that
path and every path below it is absent from the traversal result at
every level. -/
theorem C2_ignored_subtrees_absent (read : String → Option String)
    (fp : Option (List String)) (items : List String) (es : Entries)
    (p q : String)
    (ht : traverse_directory read fp items = some es)
    (hig : should_ignore p = true)
    (hpre : splitPath p <+: splitPath q) :
    getPath es (splitPath q) = none := by
  by_contra hne
  rcases traverse_sources items [] es ht (splitPath q) hne with hold | ⟨r, _, hrn, hrpre⟩
  · exact hold (getPath_empty _)
  · have hri : should_ignore r = true :=
      should_ignore_of_prefix (hpre.trans hrpre) hig
    rw [hri] at hrn
    exact absurd hrn (by simp)

/-- Witness for C2 at the concrete scenario: `node_modules` is ignored,
so `node_modules/x.js` is absent from the result. -/
theorem C2_ignored_subtrees_absent_witness :
    getPath scenarioEntries (splitPath "node_modules/x.js") = none :=
  C2_ignored_subtrees_absent scenarioRead none scenarioItems scenarioEntries
    "node_modules" "node_modules/x.js" (by rfl) (by decide) ⟨["x.js"], by rfl⟩

/-- C3: a listed path that is not ignored (in a listing where no other
non-ignored item sits strictly above it, as in any git listing) ends up
in the result at its nested position holding: its content when it is
important and the read succeeds, the error placeholder when it is
important and the read fails (the failure neither aborts the traversal
nor is dropped), and the sentinel string `"file"` when it is not
important. -/
theorem C3_content_or_marker (read : String → Option String)
    (fp : Option (List String)) (items : List String) (es : Entries) (p : String)
    (ht : traverse_directory read fp items = some es)
    (hmem : p ∈ items)
    (hnig : should_ignore p = false)
    (hpf : ∀ q ∈ items, should_ignore q = false →
      ¬(splitPath q <+: splitPath p ∧ splitPath q ≠ splitPath p)) :
    (∀ c, is_important_file p fp = true → read p = some c →
        getPath es (splitPath p) = some (.leaf c)) ∧
    (is_important_file p fp = true → read p = none →
        getPath es (splitPath p) = some (.leaf "Error reading file")) ∧
    (is_important_file p fp = false →
        getPath es (splitPath p) = some (.leaf "file")) := by
  have h := traverse_reaches items [] ht hmem hnig hpf
  refine ⟨?_, ?_, ?_⟩
  · intro c himp hread
    rw [h]
    simp [leafValue, himp, hread]
  · intro himp hread
    rw [h]
    simp [leafValue, himp, hread]
  · intro himp
    rw [h]
    simp [leafValue, himp]

/-- Witness for C3 at the concrete scenario: `README.md` is important
and readable, so its literal content is inlined. -/
theorem C3_content_or_marker_witness :
    getPath scenarioEntries (splitPath "README.md") =
      some (.leaf "<readme contents>") :=
  (C3_content_or_marker scenarioRead none scenarioItems scenarioEntries
      "README.md" (by rfl) (by decide) (by decide) (by decide)).1
    "<readme contents>" (by decide) (by rfl)

/-- C6: every directory node present in the traversal result is a
nonempty mapping, at every nesting level: a directory all of whose
entries are ignored never comes into existence, because directory nodes
are only created on the way to inserting a surviving entry. -/
theorem C6_dirs_nonempty (read : String → Option String)
    (fp : Option (List String)) (items : List String) (es : Entries)
    (σ : List String) (sub : Entries)
    (ht : traverse_directory read fp items = some es)
    (h : getPath es σ = some (.dir sub)) : sub ≠ [] :=
  traverse_WFdir items [] es ht WFdir_empty σ sub h

/-- Witness for C6 at the concrete scenario: the one directory node in
the result, `src`, is nonempty. -/
theorem C6_dirs_nonempty_witness :
    ([("app.py", Node.leaf "file")] : Entries) ≠ [] :=
  C6_dirs_nonempty scenarioRead none scenarioItems scenarioEntries
    ["src"] [("app.py", Node.leaf "file")] (by rfl) (by rfl)

/-- C1 counterexample: in the spec's concrete scenario the result does
NOT hold the `.gitignore` contents — `.gitignore` matches the ignore
pattern `".*"`, so `should_ignore` skips it before the important-file
check can inline it, and it is absent from the traversal result. -/
theorem C1_counterexample :
    traverse_directory scenarioRead none scenarioItems = some scenarioEntries ∧
    should_ignore ".gitignore" = true ∧
    getPath scenarioEntries (splitPath ".gitignore") = none :=
  ⟨by rfl, by decide, by rfl⟩

/-- C1 (amended): for the scenario request with default patterns the
traversal returns the structure holding the inlined `README.md`
contents and `src/app.py` as `"file"`, with `node_modules` AND
`.gitignore` both entirely absent (the latter because the ignore
pattern `".*"` takes precedence over the important-file list). -/
theorem C1_scenario :
    traverse_directory scenarioRead none scenarioItems =
      some [("README.md", .leaf "<readme contents>"),
            ("src", .dir [("app.py", .leaf "file")])] := by rfl

/-- C4: `is_important_file` returns true iff the path matches at least
one glob of the effective pattern set (pure union semantics, stated as
an existential over the set), and a supplied custom set fully replaces
the default set: the result for an override depends only on that
override.  The two final conjuncts exhibit the replacement: a path
matching a default pattern is not important under an override that does
not match it. -/
theorem C4_is_important_file (p : String) (ov : Option (List String))
    (ps : List String) :
    (is_important_file p ov = true ↔
      ∃ pat ∈ (match ov with
               | some l => l
               | none => DEFAULT_IMPORTANT_FILE_PATTERNS),
        fnmatch p pat = true) ∧
    is_important_file p (some ps) = ps.any (fun pat => fnmatch p pat) ∧
    is_important_file "README.md" (some ["*.py"]) = false ∧
    is_important_file "README.md" none = true := by
  refine ⟨?_, rfl, by decide, by decide⟩
  unfold is_important_file
  exact List.any_eq_true

/-- Successful run characterization of the modelled
`traverse_git_repo`: with a reachable remote it returns the outcome and
updated world of the source's lines 224-285. -/
theorem traverse_git_repo_ok (w : RepoWorld) (branch : String)
    (fp : Option (List String)) (hreach : w.remoteReachable = true) :
    traverse_git_repo w branch fp =
      .ok ({ didClone := !w.copyExists,
             finalBranch := if w.branchExists then branch else w.currentBranch,
             result := traverse_directory
               (w.readF (if w.branchExists then branch else w.currentBranch)) fp
               (w.listing (if w.branchExists then branch else w.currentBranch)) },
           { w with copyExists := true,
                    currentBranch :=
                      if w.branchExists then branch else w.currentBranch }) := by
  unfold traverse_git_repo
  rw [hreach]
  rfl

/-- C5: with unchanged remote content (the same branch-indexed oracles)
and unchanged patterns, running the traversal twice for the same
repository key yields identical structure results; the first run on a
fresh world clones, the second does not re-clone (the existing working
copy is opened in place), and a requested branch that does not exist
leaves the copy on its current branch while the request still
succeeds. -/
theorem C5_idempotent_no_reclone (w : RepoWorld) (branch : String)
    (fp : Option (List String)) (o1 o2 : RunOutcome) (w1 w2 : RepoWorld)
    (hreach : w.remoteReachable = true)
    (hfresh : w.copyExists = false)
    (h1 : traverse_git_repo w branch fp = .ok (o1, w1))
    (h2 : traverse_git_repo w1 branch fp = .ok (o2, w2)) :
    o1.didClone = true ∧ o2.didClone = false ∧ o2.result = o1.result ∧
    (w.branchExists = false → o1.finalBranch = w.currentBranch) := by
  rw [traverse_git_repo_ok w branch fp hreach] at h1
  simp only [Except.ok.injEq, Prod.mk.injEq] at h1
  obtain ⟨ho1, hw1⟩ := h1
  subst ho1
  subst hw1
  have hreach1 : ({ w with copyExists := true, currentBranch := if w.branchExists then branch else w.currentBranch } : RepoWorld).remoteReachable = true := hreach
  rw [traverse_git_repo_ok _ branch fp hreach1] at h2
  simp only [Except.ok.injEq, Prod.mk.injEq] at h2
  obtain ⟨ho2, hw2⟩ := h2
  subst ho2
  refine ⟨?_, ?_, ?_, ?_⟩
  · simp [hfresh]
  · rfl
  · cases hbe : w.branchExists <;> simp [hbe]
  · intro hbe
    simp [hbe]

/-- Witness for C5 at the concrete world: the first run clones, the
second does not, structures agree, and the missing branch leaves the
copy on `develop`. -/
theorem C5_idempotent_no_reclone_witness :
    witnessOutcome1.didClone = true ∧ witnessOutcome2.didClone = false ∧
    witnessOutcome2.result = witnessOutcome1.result ∧
    (witnessWorld.branchExists = false →
      witnessOutcome1.finalBranch = witnessWorld.currentBranch) :=
  C5_idempotent_no_reclone witnessWorld "main" none
    witnessOutcome1 witnessOutcome2 witnessWorldAfter witnessWorldAfter
    (by rfl) (by rfl) (by rfl) (by rfl)

/-- C7 counterexample: the derived repository key is the final path
segment even when that segment is empty — for the trailing-slash URL
`https://github.com/example/proj/` the key is `""`, not `"proj"` (the
claim's "final non-empty path segment" reading fails). -/
theorem C7_counterexample :
    repo_name_of_url "https://github.com/example/proj/" = "" ∧
    ("" : String) ≠ "proj" :=
  ⟨by rfl, by decide⟩

/-- C7 (amended): the derived repository key is the final — possibly
empty — path segment of the URL path with the extension stripped:
`.../proj.git` and `.../proj` both derive `proj`, a deeper path derives
its last segment, but a trailing-slash URL derives the empty key. -/
theorem C7_repo_key :
    repo_name_of_url "https://github.com/example/proj.git" = "proj" ∧
    repo_name_of_url "https://github.com/example/proj" = "proj" ∧
    repo_name_of_url "https://gitlab.com/group/sub/widget.git" = "widget" ∧
    repo_name_of_url "https://github.com/example/proj/" = "" :=
  ⟨by rfl, by rfl, by rfl, by rfl⟩

/-- C8: whenever the Authorization header is absent or differs from
`Bearer` followed by the configured secret, the endpoint answers 401
with the fixed error body and the traversal (clone included) is never
invoked. -/
theorem C8_unauthorized (valid_token : String) (auth : Option String)
    (req : GitRepoRequest) (oracle : Except String Entries)
    (hne : ∀ s, auth = some s → s ≠ "Bearer " ++ valid_token) :
    get_git_structure valid_token auth req oracle =
      { status := 401, body := .err "Invalid or missing bearer token",
        traversalInvoked := false } := by
  have hfail : authFailed auth valid_token = true := by
    cases auth with
    | none => rfl
    | some a =>
      have hna : a ≠ "Bearer " ++ valid_token := hne a rfl
      have hbeq : (a == "Bearer " ++ valid_token) = false :=
        beq_eq_false_iff_ne.mpr hna
      simp [authFailed, validate_bearer_token, hbeq]
  unfold get_git_structure
  rw [hfail]
  rfl

/-- Witness for C8: a wrong bearer token gets the 401 response and no
traversal. -/
theorem C8_unauthorized_witness :
    get_git_structure "s3cret" (some "Bearer wrong")
      { repo_url := "https://github.com/example/proj" } (.ok []) =
      { status := 401, body := .err "Invalid or missing bearer token",
        traversalInvoked := false } :=
  C8_unauthorized "s3cret" (some "Bearer wrong")
    { repo_url := "https://github.com/example/proj" } (.ok [])
    (by
      intro s hs
      rw [Option.some.injEq] at hs
      subst hs
      decide)

/-- A correctly authorized header never fails the 401 guard. -/
theorem authFailed_valid (valid_token : String) :
    authFailed (some ("Bearer " ++ valid_token)) valid_token = false := by
  have hne : ("Bearer " ++ valid_token) ≠ "" := by
    intro h
    have hlen := congrArg String.length h
    rw [String.length_append] at hlen
    rw [show ("Bearer " : String).length = 7 from rfl,
        show ("" : String).length = 0 from rfl] at hlen
    omega
  have hbeq : ("Bearer " ++ valid_token == "") = false := beq_eq_false_iff_ne.mpr hne
  simp [authFailed, validate_bearer_token, hbeq]

/-- Mapping over an error value is the identity on the error. -/
theorem exceptMap_error (f : RepoType → String) (m : String) :
    Except.map f (Except.error m : Except String RepoType) = Except.error m := rfl

/-- Mapping over an ok value applies the function. -/
theorem exceptMap_ok (f : RepoType → String) (t : RepoType) :
    Except.map f (Except.ok t : Except String RepoType) = Except.ok (f t) := rfl

/-- C9: for an authenticated request whose URL contains neither
`github.com` nor `gitlab.com` and whose type is unspecified (absent or
the string `"null"`), the endpoint answers 400 with the message naming
the unresolvable-type condition, before any traversal; and whenever
either host substring is present or an explicit type is supplied, type
resolution succeeds, so that error cannot occur. -/
theorem C9_unresolvable_type (valid_token : String) (req : GitRepoRequest)
    (oracle : Except String Entries) :
    ((strContains req.repo_url "github.com" = false) →
     (strContains req.repo_url "gitlab.com" = false) →
     (req.type = none ∨ req.type = some "null") →
     get_git_structure valid_token (some ("Bearer " ++ valid_token)) req oracle =
       { status := 400,
         body := .err "Unable to detect repository type. Please specify 'type' in the request.",
         traversalInvoked := false }) ∧
    ((strContains req.repo_url "github.com" = true ∨
      strContains req.repo_url "gitlab.com" = true ∨
      (∃ t, req.type = some t ∧ t ≠ "null")) →
     ∃ rt, resolveType req.type req.repo_url = .ok rt) := by
  constructor
  · intro hgh hgl htype
    have hdet : detect_repo_type req.repo_url =
        .error "Unable to detect repository type. Please specify 'type' in the request." := by
      unfold detect_repo_type
      rw [hgh, hgl]
      rfl
    have hres : resolveType req.type req.repo_url =
        .error "Unable to detect repository type. Please specify 'type' in the request." := by
      rcases htype with h | h
      · simp [resolveType, h, hdet, exceptMap_error]
      · simp [resolveType, h, hdet, exceptMap_error]
    unfold get_git_structure
    rw [authFailed_valid]
    simp only [Bool.false_eq_true, if_false]
    rw [hres]
  · intro hdisj
    rcases hok : req.type with _ | t
    · have hhost : strContains req.repo_url "github.com" = true ∨
          strContains req.repo_url "gitlab.com" = true := by
        rcases hdisj with h | h | ⟨t, ht, _⟩
        · exact Or.inl h
        · exact Or.inr h
        · rw [hok] at ht; simp at ht
      by_cases hg : strContains req.repo_url "github.com" = true
      · exact ⟨"github", by simp [resolveType, hok, detect_repo_type, hg, RepoType.toStr, exceptMap_ok]⟩
      · have hg2 : strContains req.repo_url "github.com" = false := by
          simpa using hg
        have hl : strContains req.repo_url "gitlab.com" = true := by
          rcases hhost with h | h
          · exact absurd h hg
          · exact h
        exact ⟨"gitlab", by simp [resolveType, hok, detect_repo_type, hg2, hl, RepoType.toStr, exceptMap_ok]⟩
    · by_cases htn : t = "null"
      · subst htn
        have hhost : strContains req.repo_url "github.com" = true ∨
            strContains req.repo_url "gitlab.com" = true := by
          rcases hdisj with h | h | ⟨t2, ht2, hne2⟩
          · exact Or.inl h
          · exact Or.inr h
          · rw [hok] at ht2
            rw [Option.some.injEq] at ht2
            exact absurd ht2.symm hne2
        by_cases hg : strContains req.repo_url "github.com" = true
        · exact ⟨"github", by simp [resolveType, hok, detect_repo_type, hg, RepoType.toStr, exceptMap_ok]⟩
        · have hg2 : strContains req.repo_url "github.com" = false := by
            simpa using hg
          have hl : strContains req.repo_url "gitlab.com" = true := by
            rcases hhost with h | h
            · exact absurd h hg
            · exact h
          exact ⟨"gitlab", by simp [resolveType, hok, detect_repo_type, hg2, hl, RepoType.toStr, exceptMap_ok]⟩
      · exact ⟨t, by simp [resolveType, hok, htn]⟩

/-- Witness for C9: the unrecognizable-host request gets the 400
response naming the unresolvable-type condition, and the github-host
request resolves its type. -/
theorem C9_unresolvable_type_witness :
    get_git_structure "k" (some ("Bearer " ++ "k")) unresolvableReq (.ok []) =
      { status := 400,
        body := .err "Unable to detect repository type. Please specify 'type' in the request.",
        traversalInvoked := false } ∧
    ∃ rt, resolveType githubReq.type githubReq.repo_url = .ok rt :=
  ⟨(C9_unresolvable_type "k" unresolvableReq (.ok [])).1
      (by decide) (by decide) (Or.inl rfl),
   (C9_unresolvable_type "k" githubReq (.ok [])).2 (Or.inl (by decide))⟩

/-! ### General glob-matching lemmas (for C10) -/

/-- A pattern of literal tokens matches exactly the identical string. -/
theorem matchGo_lits : ∀ (cs s : List Char) (f : Nat),
    cs.length + s.length < f →
    (matchGo f (cs.map GlobTok.lit) s = true ↔ s = cs) := by
  intro cs
  induction cs with
  | nil =>
    intro s f hf
    cases f with
    | zero => omega
    | succ f2 =>
      show (s.isEmpty = true ↔ s = [])
      simp [List.isEmpty_iff]
  | cons c cs2 ih =>
    intro s f hf
    cases f with
    | zero => omega
    | succ f2 =>
      cases s with
      | nil =>
        show (false = true ↔ ([] : List Char) = c :: cs2)
        simp
      | cons d s2 =>
        show (((c == d) && matchGo f2 (cs2.map GlobTok.lit) s2) = true ↔
          d :: s2 = c :: cs2)
        have hih := ih s2 f2 (by simp only [List.length_cons] at hf; omega)
        constructor
        · intro hand
          rw [Bool.and_eq_true] at hand
          have hcd : c = d := by simpa using hand.1
          have hs2 : s2 = cs2 := hih.mp hand.2
          rw [hcd, hs2]
        · intro heq
          rw [List.cons.injEq] at heq
          obtain ⟨hd, hs2⟩ := heq
          rw [Bool.and_eq_true]
          exact ⟨by simp [hd], hih.mpr hs2⟩

/-- A literal-token pattern rejects any other string. -/
theorem matchGo_lits_ne {cs s : List Char} {f : Nat}
    (hf : cs.length + s.length < f) (hne : s ≠ cs) :
    matchGo f (cs.map GlobTok.lit) s = false := by
  cases hm : matchGo f (cs.map GlobTok.lit) s with
  | false => rfl
  | true => exact absurd ((matchGo_lits cs s f hf).mp hm) hne

/-- A star followed by literal tokens accepts every string ending in
those literals, whatever comes before — the star also eats path
separators. -/
theorem matchGo_star_lits (cs : List Char) : ∀ (t s : List Char) (f : Nat),
    s = t ++ cs → cs.length + s.length + 1 < f →
    matchGo f (.star :: cs.map GlobTok.lit) s = true := by
  intro t
  induction t with
  | nil =>
    intro s f hs hf
    rw [List.nil_append] at hs
    rw [hs] at hf ⊢
    clear hs
    cases f with
    | zero => omega
    | succ f2 =>
      cases cs with
      | nil =>
        cases f2 with
        | zero => omega
        | succ f3 => rfl
      | cons c cs2 =>
        have h1 : matchGo f2 ((c :: cs2).map GlobTok.lit) (c :: cs2) = true :=
          (matchGo_lits (c :: cs2) (c :: cs2) f2
            (by simp only [List.length_cons] at hf ⊢; omega)).mpr rfl
        show (matchGo f2 ((c :: cs2).map GlobTok.lit) (c :: cs2) ||
          matchGo f2 (.star :: (c :: cs2).map GlobTok.lit) cs2) = true
        rw [h1, Bool.true_or]
  | cons a t2 iht =>
    intro s f hs hf
    subst hs
    cases f with
    | zero => omega
    | succ f2 =>
      show (matchGo f2 (cs.map GlobTok.lit) (a :: (t2 ++ cs)) ||
        matchGo f2 (.star :: cs.map GlobTok.lit) (t2 ++ cs)) = true
      have h2 : matchGo f2 (.star :: cs.map GlobTok.lit) (t2 ++ cs) = true :=
        iht (t2 ++ cs) f2 rfl
          (by simp only [List.cons_append, List.length_cons] at hf; omega)
      rw [h2, Bool.or_true]

/-- A wildcard-free pattern, matched against the full relative path,
can never match a path that contains a separator the pattern lacks. -/
theorem fnmatch_lit_no_slash (pat d n : String)
    (htok : tokenize pat.data = pat.data.map GlobTok.lit)
    (hns : ('/' : Char) ∉ pat.data) :
    fnmatch (d ++ "/" ++ n) pat = false := by
  unfold fnmatch
  rw [htok]
  apply matchGo_lits_ne
  · rw [List.length_map]
    omega
  · intro heq
    apply hns
    rw [← heq, String.data_append, String.data_append]
    have h0 : ('/' : Char) ∈ ("/" : String).data := by decide
    exact List.mem_append_left _ (List.mem_append_right _ h0)

/-- C10 counterexample: the bare-filename default pattern `README*`
DOES match a file nested below the repository root — the trailing `*`
also matches the path separator, so `README2/notes.txt` (a nested path,
it contains a separator) is classified important by the default set. -/
theorem C10_counterexample :
    ("README*" : String) ∈ DEFAULT_IMPORTANT_FILE_PATTERNS ∧
    ('/' : Char) ∈ ("README2/notes.txt" : String).data ∧
    fnmatch "README2/notes.txt" "README*" = true ∧
    is_important_file "README2/notes.txt" none = true :=
  ⟨by decide, by decide, by decide, by decide⟩

/-- C10 (amended): important-file matching tests the glob against the
full relative path with `*` also matching the separator; hence
wildcard-free defaults (`Dockerfile`, `package.json`) match only the
root-level file and never a nested one, a nested `src/README.md` is not
matched by `README*` (full-path, not basename, matching), extension
patterns such as `*.md` match at every depth — but, contrary to the
original claim, a trailing-wildcard bare-name pattern such as `README*`
does match nested paths whose full path starts with the literal prefix
(e.g. `README2/notes.txt`). -/
theorem C10_full_path_matching :
    (∀ d n : String, fnmatch (d ++ "/" ++ n) "Dockerfile" = false) ∧
    (∀ d n : String, fnmatch (d ++ "/" ++ n) "package.json" = false) ∧
    fnmatch "src/README.md" "README*" = false ∧
    fnmatch "README2/notes.txt" "README*" = true ∧
    (∀ d m : String, fnmatch (d ++ "/" ++ m ++ ".md") "*.md" = true) := by
  refine ⟨?_, ?_, by decide, by decide, ?_⟩
  · intro d n
    exact fnmatch_lit_no_slash "Dockerfile" d n (by rfl) (by decide)
  · intro d n
    exact fnmatch_lit_no_slash "package.json" d n (by rfl) (by decide)
  · intro d m
    unfold fnmatch
    rw [show tokenize ("*.md" : String).data =
      .star :: ((".md" : String).data.map GlobTok.lit) from rfl]
    refine matchGo_star_lits (".md" : String).data ((d ++ "/" ++ m) : String).data
      (d ++ "/" ++ m ++ ".md").data _ ?_ ?_
    · rw [String.data_append]
    · rw [show ((".md" : String).data).length = 3 from rfl,
        show ((GlobTok.star :: ((".md" : String).data.map GlobTok.lit)) :
          List GlobTok).length = 4 from rfl]
      omega

end GitTraverse
